import Mathlib

/-!
# Verification of the `DF` digital-filter class (`pylayers/signal/DF.py`)

A shallow embedding of the `DF` class of `pylayers/signal/DF.py`.

A filter state holds numerator/denominator coefficient lists `b`, `a`
(highest power first, as in `np.poly1d`), the derived root multisets
`z` (zeros) and `p` (poles), and the FIR flag `fir`.

The polynomial root utility used by the source (`np.poly1d(c).r` and
`np.poly1d(r, r=True).c`) is an external collaborator of the repository;
it is modelled exactly, over `ℂ`, by `Polynomial.roots` and by expanding
the monic polynomial `∏ (X - rᵢ)`.  Likewise the filtering primitive
`scipy.signal.lfilter` is modelled by the standard direct-form recursion.
-/

open Polynomial

/-- `toPoly [c0, c1, ..., cn]` is the polynomial `c0·Xⁿ + c1·Xⁿ⁻¹ + ... + cn`
(coefficients highest power first, the `np.poly1d` convention), in Horner form. -/
noncomputable def toPoly (c : List ℂ) : Polynomial ℂ :=
  c.foldl (fun q ai => q * Polynomial.X + Polynomial.C ai) 0

/-- Modelled from the spec: the external polynomial-root utility
(`np.poly1d(c).r`, not part of this repository): "given coefficients,
returns roots".  Over `ℂ` this is exactly the multiset of roots with
multiplicity. -/
noncomputable def rootsOf (c : List ℂ) : Multiset ℂ :=
  (toPoly c).roots

/-- The length-`n+1` coefficient list (highest power first) of a polynomial. -/
noncomputable def coeffList (q : Polynomial ℂ) (n : ℕ) : List ℂ :=
  (List.range (n + 1)).map fun i => q.coeff (n - i)

/-- The monic polynomial `∏ (X - rᵢ)` with the given root multiset. -/
noncomputable def polyOfRoots (r : Multiset ℂ) : Polynomial ℂ :=
  (r.map fun t => Polynomial.X - Polynomial.C t).prod

/-- Modelled from the spec: the external root-to-coefficient utility
(`np.poly1d(r, r=True).c`, not part of this repository): "given roots,
returns coefficients of the monic polynomial with those roots", as a list
of length `card r + 1`, highest power first. -/
noncomputable def coeffsOfRoots (r : Multiset ℂ) : List ℂ :=
  coeffList (polyOfRoots r) (Multiset.card r)

/-- The state of a `DF` object: coefficient lists `_b`, `_a`, derived root
multisets `_z`, `_p`, and the FIR flag `fir`. -/
structure DF where
  b : List ℂ
  a : List ℂ
  z : Multiset ℂ
  p : Multiset ℂ
  fir : Bool

namespace DF

/-- The `b` property setter (`DF.py` lines 69-72): stores `b` and recomputes
the zeros `_z = np.poly1d(b).r`. -/
noncomputable def setB (s : DF) (b : List ℂ) : DF :=
  { s with b := b, z := rootsOf b }

/-- The `a` property setter (`DF.py` lines 60-67): stores `a`, recomputes the
poles `_p = np.poly1d(a).r` and sets `fir` to whether `len(a) == 1`. -/
noncomputable def setA (s : DF) (a : List ℂ) : DF :=
  { s with a := a, p := rootsOf a, fir := a.length == 1 }

/-- The `z` property setter (`DF.py` lines 79-82): stores the zeros and
recomputes `_b = np.poly1d(z, r=True).c`.  It writes the private field `_b`
directly, so nothing else changes. -/
noncomputable def setZ (s : DF) (z : Multiset ℂ) : DF :=
  { s with z := z, b := coeffsOfRoots z }

/-- The `p` property setter (`DF.py` lines 74-77): stores the poles and
recomputes `_a = np.poly1d(p, r=True).c`.  It writes the private field `_a`
directly (not through the `a` property), so `fir` is NOT recomputed. -/
noncomputable def setP (s : DF) (p : Multiset ℂ) : DF :=
  { s with p := p, a := coeffsOfRoots p }

/-- A pre-`__init__` state.  Every field is overwritten by `init` before it
can be observed (reading an attribute of a half-built `DF` raises in Python). -/
def mk0 : DF :=
  ⟨[], [], 0, 0, false⟩

/-- `DF.__init__(b, a)`: runs the `b` setter then the `a` setter
(`self.b = b; self.a = a`).  The default construction is `init [1] [1]`. -/
noncomputable def init (b a : List ℂ) : DF :=
  (mk0.setB b).setA a

/-- `DF.__mul__` (`DF.py` lines 84-107): recomputes the roots of both
numerators and both denominators, builds a fresh default filter, sets its
poles to the concatenation of the pole lists and its zeros to the
concatenation of the zero lists. -/
noncomputable def mul (f1 f2 : DF) : DF :=
  ((init [1] [1]).setP (rootsOf f1.a + rootsOf f2.a)).setZ
    (rootsOf f1.b + rootsOf f2.b)

/-- `DF.match` (`DF.py` lines 122-130; named `matchf` because `match` is a
Lean keyword): for an FIR filter, a fresh filter with
`b = np.conj(self.b[::-1])` and `a = self.a`; otherwise the `if` falls
through and Python returns `None`. -/
noncomputable def matchf (s : DF) : Option DF :=
  if s.fir then
    some (((init [1] [1]).setB ((s.b.reverse).map (starRingEnd ℂ))).setA s.a)
  else
    none

/-- `DF.factorize` (`DF.py` lines 156-183): for an FIR filter, splits the
zeros into the internal ones (`abs(z) <= 1`) and the external ones
(`abs(z) > 1`) and returns `(DF(b=bi), DF(b=be))` where `bi`, `be` are the
monic coefficient lists built from each part; otherwise Python returns
`None`. -/
noncomputable def factorize (s : DF) : Option (DF × DF) :=
  if s.fir then
    some (init (coeffsOfRoots (s.z.filter fun x => Complex.abs x ≤ 1)) [1],
          init (coeffsOfRoots (s.z.filter fun x => 1 < Complex.abs x)) [1])
  else
    none

/-- Modelled from the spec: the external filtering primitive
(`scipy.signal.lfilter`, not part of this repository): the standard
direct-form recursion with zero initial state,
`y[n] = (Σ_i b[i]·x[n-i] - Σ_{j≥1} a[j]·y[n-j]) / a[0]`,
with out-of-range samples read as `0`. -/
noncomputable def dfOut (b a : List ℂ) (x : ℕ → ℂ) : ℕ → ℂ
  | n =>
    (((Finset.range b.length).sum fun i =>
        b.getD i 0 * (if i ≤ n then x (n - i) else 0)) -
      ((Finset.Icc 1 n).attach.sum fun j =>
        a.getD j.1 0 * dfOut b a x (n - j.1))) / a.getD 0 0
  termination_by n => n
  decreasing_by
    have hj := Finset.mem_Icc.mp j.2
    omega

/-- Modelled from the spec: `lfilter` on a finite signal, returning an output
of the same length. -/
noncomputable def lfilter (b a : List ℂ) (x : List ℂ) : List ℂ :=
  (List.range x.length).map fun n => dfOut b a (fun k => x.getD k 0) n

/-- `DF.filter` (`DF.py` lines 132-154): applies `lfilter(b, a, x)`; when
`causal` is false the input is reversed first and the output reversed back. -/
noncomputable def filter (s : DF) (x : List ℂ) (causal : Bool) : List ℂ :=
  if causal then lfilter s.b s.a x
  else (lfilter s.b s.a x.reverse).reverse

/-- A filter state is consistent when each root multiset is exactly the
multiset of roots of the corresponding coefficient list.  Every state
produced by `init` and the four setters is consistent. -/
def Consistent (s : DF) : Prop :=
  rootsOf s.b = s.z ∧ rootsOf s.a = s.p

/-- The `b` setter under Python exception semantics, with the external root
utility allowed to fail (`roots`).  The source executes `self._b = b` and
only then computes `np.poly1d(b).r`; if the root computation raises, `_b` has
already been overwritten while `_z` keeps its old value.  The boolean records
whether the call succeeded. -/
def setBExc (s : DF) (roots : List ℂ → Except Unit (Multiset ℂ))
    (v : List ℂ) : DF × Bool :=
  match roots v with
  | Except.ok z => ({ s with b := v, z := z }, true)
  | Except.error _ => ({ s with b := v }, false)

/-- The `a` setter under Python exception semantics, with the external root
utility allowed to fail.  The source executes `self._a = a` first; if the
root computation raises, `_a` has already been overwritten while `_p` and
`fir` keep their old values. -/
def setAExc (s : DF) (roots : List ℂ → Except Unit (Multiset ℂ))
    (v : List ℂ) : DF × Bool :=
  match roots v with
  | Except.ok p => ({ s with a := v, p := p, fir := v.length == 1 }, true)
  | Except.error _ => ({ s with a := v }, false)

end DF

/-! ## Supporting lemmas on the polynomial embedding -/

theorem toPoly_nil : toPoly [] = 0 :=
  rfl

theorem toPoly_foldl (q : Polynomial ℂ) (c : List ℂ) :
    c.foldl (fun r ai => r * Polynomial.X + Polynomial.C ai) q =
      q * Polynomial.X ^ c.length + toPoly c := by
  induction c generalizing q with
  | nil => simp [toPoly]
  | cons a l ih =>
    simp only [toPoly, List.foldl_cons, List.length_cons] at *
    rw [ih (q * Polynomial.X + Polynomial.C a),
      ih (0 * Polynomial.X + Polynomial.C a)]
    ring

theorem toPoly_cons (a : ℂ) (l : List ℂ) :
    toPoly (a :: l) = Polynomial.C a * Polynomial.X ^ l.length + toPoly l := by
  have h : toPoly (a :: l) =
      l.foldl (fun r ai => r * Polynomial.X + Polynomial.C ai)
        (0 * Polynomial.X + Polynomial.C a) := rfl
  rw [h, toPoly_foldl]
  ring

theorem toPoly_singleton (c : ℂ) : toPoly [c] = Polynomial.C c := by
  rw [toPoly_cons, toPoly_nil]
  simp

theorem coeffList_zero (q : Polynomial ℂ) : coeffList q 0 = [q.coeff 0] := by
  simp [coeffList, List.range_succ]

theorem coeffList_succ (q : Polynomial ℂ) (n : ℕ) :
    coeffList q (n + 1) = q.coeff (n + 1) :: coeffList q n := by
  simp [coeffList, List.range_succ_eq_map, List.map_map, Function.comp,
    Nat.succ_sub_succ]

theorem length_coeffList (q : Polynomial ℂ) (n : ℕ) :
    (coeffList q n).length = n + 1 := by
  simp [coeffList]

theorem toPoly_coeffList (q : Polynomial ℂ) (n : ℕ) (h : q.natDegree ≤ n) :
    toPoly (coeffList q n) = q := by
  have key : ∀ m, toPoly (coeffList q m) =
      (Finset.range (m + 1)).sum fun i => Polynomial.C (q.coeff i) * Polynomial.X ^ i := by
    intro m
    induction m with
    | zero => simp [coeffList_zero, toPoly_cons, toPoly_nil]
    | succ k ih =>
      rw [coeffList_succ, toPoly_cons, length_coeffList, ih,
        Finset.sum_range_succ (fun i => Polynomial.C (q.coeff i) * Polynomial.X ^ i) (k + 1)]
      ring
  rw [key n]
  simp only [Polynomial.C_mul_X_pow_eq_monomial]
  exact (Polynomial.as_sum_range' q (n + 1) (Nat.lt_succ_of_le h)).symm

theorem natDegree_polyOfRoots (r : Multiset ℂ) :
    (polyOfRoots r).natDegree = Multiset.card r :=
  Polynomial.natDegree_multiset_prod_X_sub_C_eq_card r

theorem monic_polyOfRoots (r : Multiset ℂ) : (polyOfRoots r).Monic :=
  Polynomial.monic_multiset_prod_of_monic _ _ fun t _ => Polynomial.monic_X_sub_C t

theorem roots_polyOfRoots (r : Multiset ℂ) : (polyOfRoots r).roots = r :=
  Polynomial.roots_multiset_prod_X_sub_C r

theorem toPoly_coeffsOfRoots (r : Multiset ℂ) :
    toPoly (coeffsOfRoots r) = polyOfRoots r :=
  toPoly_coeffList _ _ (le_of_eq (natDegree_polyOfRoots r))

theorem rootsOf_coeffsOfRoots (r : Multiset ℂ) : rootsOf (coeffsOfRoots r) = r := by
  rw [rootsOf, toPoly_coeffsOfRoots, roots_polyOfRoots]

theorem card_rootsOf (c : List ℂ) :
    Multiset.card (rootsOf c) = (toPoly c).natDegree :=
  Polynomial.splits_iff_card_roots.mp (IsAlgClosed.splits_codomain (toPoly c))

theorem C_leadingCoeff_mul_polyOfRoots (q : Polynomial ℂ) :
    Polynomial.C q.leadingCoeff * polyOfRoots q.roots = q :=
  Polynomial.C_leadingCoeff_mul_prod_multiset_X_sub_C
    (Polynomial.splits_iff_card_roots.mp (IsAlgClosed.splits_codomain q))

theorem polyOfRoots_add (r1 r2 : Multiset ℂ) :
    polyOfRoots (r1 + r2) = polyOfRoots r1 * polyOfRoots r2 := by
  simp [polyOfRoots, Multiset.map_add, Multiset.prod_add]

theorem rootsOf_singleton (c : ℂ) : rootsOf [c] = 0 := by
  rw [rootsOf, toPoly_singleton, Polynomial.roots_C]

theorem coeffsOfRoots_zero : coeffsOfRoots 0 = [1] := by
  simp [coeffsOfRoots, polyOfRoots, coeffList_zero]

/-! ## The setters preserve representation consistency -/

theorem consistent_init (b a : List ℂ) : (DF.init b a).Consistent :=
  ⟨rfl, rfl⟩

theorem consistent_setB (s : DF) (hs : s.Consistent) (c : List ℂ) :
    (s.setB c).Consistent :=
  ⟨rfl, hs.2⟩

theorem consistent_setA (s : DF) (hs : s.Consistent) (c : List ℂ) :
    (s.setA c).Consistent :=
  ⟨hs.1, rfl⟩

theorem consistent_setZ (s : DF) (hs : s.Consistent) (r : Multiset ℂ) :
    (s.setZ r).Consistent :=
  ⟨rootsOf_coeffsOfRoots r, hs.2⟩

theorem consistent_setP (s : DF) (hs : s.Consistent) (r : Multiset ℂ) :
    (s.setP r).Consistent :=
  ⟨hs.1, rootsOf_coeffsOfRoots r⟩

theorem consistent_mul (f1 f2 : DF) : (f1.mul f2).Consistent :=
  consistent_setZ _ (consistent_setP _ (consistent_init _ _) _) _

theorem C_leadingCoeff_mul_polyOfRoots_rootsOf (c : List ℂ) :
    Polynomial.C (toPoly c).leadingCoeff * polyOfRoots (rootsOf c) = toPoly c :=
  C_leadingCoeff_mul_polyOfRoots (toPoly c)

/-! ## The claims -/

/-- Claim C1: dual-representation consistency.  After `setB c` (with `c` a
coefficient list of a nonzero polynomial), the stored `z` is exactly the root
multiset of the polynomial with coefficients `c`: membership coincides with
being a root, multiplicities agree with root multiplicities, and the number
of stored zeros is the degree.  After `setZ r`, the stored `b` is the
coefficient list of the monic polynomial whose root multiset is exactly
`r`. -/
theorem claim1_dual_representation :
    (∀ (s : DF) (c : List ℂ), toPoly c ≠ 0 →
      (∀ x : ℂ, (x ∈ (s.setB c).z ↔ (toPoly c).IsRoot x) ∧
        Multiset.count x (s.setB c).z = (toPoly c).rootMultiplicity x) ∧
      Multiset.card (s.setB c).z = (toPoly c).natDegree) ∧
    (∀ (s : DF) (r : Multiset ℂ),
      toPoly ((s.setZ r).b) = polyOfRoots r ∧
      (toPoly ((s.setZ r).b)).Monic ∧ (toPoly ((s.setZ r).b)).roots = r) := by
  constructor
  · intro s c hc
    refine ⟨fun x => ⟨?_, ?_⟩, ?_⟩
    · show x ∈ (toPoly c).roots ↔ (toPoly c).IsRoot x
      exact Polynomial.mem_roots hc
    · show Multiset.count x (toPoly c).roots = (toPoly c).rootMultiplicity x
      exact Polynomial.count_roots (toPoly c)
    · exact card_rootsOf c
  · intro s r
    refine ⟨toPoly_coeffsOfRoots r, ?_, ?_⟩
    · show (toPoly (coeffsOfRoots r)).Monic
      rw [toPoly_coeffsOfRoots]
      exact monic_polyOfRoots r
    · show (toPoly (coeffsOfRoots r)).roots = r
      rw [toPoly_coeffsOfRoots]
      exact roots_polyOfRoots r

theorem claim1_witness :
    toPoly [(1 : ℂ), 0] ≠ 0 ∧
    Multiset.card ((DF.init [1] [1]).setB [(1 : ℂ), 0]).z =
      (toPoly [(1 : ℂ), 0]).natDegree := by
  have hX : toPoly [(1 : ℂ), 0] = Polynomial.X := by
    rw [toPoly_cons, toPoly_singleton]
    simp
  have h0 : toPoly [(1 : ℂ), 0] ≠ 0 := by
    rw [hX]
    exact Polynomial.X_ne_zero
  exact ⟨h0, (claim1_dual_representation.1 (DF.init [1] [1]) [(1 : ℂ), 0] h0).2⟩

/-- Claim C2 (refuted; code bug): the claim says `is_fir` is true iff
`len(a) == 1` after any sequence of mutations.  But the `p` setter writes the
private field `_a` directly and never recomputes `fir`, so after constructing
the default filter (where `fir` is true) and then setting `p` to a single
pole, `fir` is still true while `a` has length 2. -/
theorem claim2_fir_bug :
    ((DF.init [1] [1]).setP {(2 : ℂ)}).fir = true ∧
    ((DF.init [1] [1]).setP {(2 : ℂ)}).a.length = 2 := by
  constructor
  · rfl
  · have h : ((DF.init [1] [1]).setP {(2 : ℂ)}).a = coeffsOfRoots {(2 : ℂ)} := rfl
    rw [h]
    simp [coeffsOfRoots, length_coeffList]

/-- Claim C3: composition concatenates zero and pole multisets.  For
consistent filter states (as produced by construction and the setters —
see `consistent_init`, `consistent_setB`, `consistent_setA`,
`consistent_setZ`, `consistent_setP`, `consistent_mul`), the zero multiset
of `f1 * f2` is `f1.z + f2.z` and its pole multiset is `f1.p + f2.p`.
The operation builds a fresh filter from its two read-only arguments, so the
inputs are unmodified by construction in this state-passing embedding. -/
theorem claim3_compose_concatenates (f1 f2 : DF)
    (h1 : f1.Consistent) (h2 : f2.Consistent) :
    (f1.mul f2).z = f1.z + f2.z ∧ (f1.mul f2).p = f1.p + f2.p := by
  constructor
  · show rootsOf f1.b + rootsOf f2.b = f1.z + f2.z
    rw [h1.1, h2.1]
  · show rootsOf f1.a + rootsOf f2.a = f1.p + f2.p
    rw [h1.2, h2.2]

theorem claim3_witness :
    ((DF.init [1] [1]).mul (DF.init [1] [1])).z =
      (DF.init [1] [1]).z + (DF.init [1] [1]).z ∧
    ((DF.init [1] [1]).mul (DF.init [1] [1])).p =
      (DF.init [1] [1]).p + (DF.init [1] [1]).p :=
  claim3_compose_concatenates (DF.init [1] [1]) (DF.init [1] [1])
    ⟨rfl, rfl⟩ ⟨rfl, rfl⟩

/-- Claim C4 (refuted at a concrete input): the transfer function of
`F1 * F2` does NOT always equal the product of the transfer functions.
`__mul__` rebuilds both polynomials as monic polynomials from their roots,
so any leading-coefficient gain is dropped: for `F1 = DF(b=[2], a=[1])` and
`F2 = DF(b=[1], a=[1])` the product of transfer functions is the constant 2
while the composed filter's transfer function is the constant 1. -/
theorem claim4_counterexample :
    (Polynomial.eval 0 (toPoly (((DF.init [2] [1]).mul (DF.init [1] [1])).b)) /
        Polynomial.eval 0 (toPoly (((DF.init [2] [1]).mul (DF.init [1] [1])).a)) = 1) ∧
    ((Polynomial.eval 0 (toPoly (DF.init [2] [1]).b) /
          Polynomial.eval 0 (toPoly (DF.init [2] [1]).a)) *
        (Polynomial.eval 0 (toPoly (DF.init [1] [1]).b) /
          Polynomial.eval 0 (toPoly (DF.init [1] [1]).a)) = 2) ∧
    (Polynomial.eval 0 (toPoly (((DF.init [2] [1]).mul (DF.init [1] [1])).b)) /
        Polynomial.eval 0 (toPoly (((DF.init [2] [1]).mul (DF.init [1] [1])).a)) ≠
      (Polynomial.eval 0 (toPoly (DF.init [2] [1]).b) /
          Polynomial.eval 0 (toPoly (DF.init [2] [1]).a)) *
        (Polynomial.eval 0 (toPoly (DF.init [1] [1]).b) /
          Polynomial.eval 0 (toPoly (DF.init [1] [1]).a))) := by
  have hb : (((DF.init [2] [1]).mul (DF.init [1] [1])).b) =
      coeffsOfRoots (rootsOf [2] + rootsOf [1]) := rfl
  have ha : (((DF.init [2] [1]).mul (DF.init [1] [1])).a) =
      coeffsOfRoots (rootsOf [1] + rootsOf [1]) := rfl
  have hb' : (((DF.init [2] [1]).mul (DF.init [1] [1])).b) = [1] := by
    rw [hb]
    simp [rootsOf_singleton, coeffsOfRoots_zero]
  have ha' : (((DF.init [2] [1]).mul (DF.init [1] [1])).a) = [1] := by
    rw [ha]
    simp [rootsOf_singleton, coeffsOfRoots_zero]
  have hb1 : (DF.init [2] [1]).b = [(2 : ℂ)] := rfl
  have ha1 : (DF.init [2] [1]).a = [(1 : ℂ)] := rfl
  have hb2 : (DF.init [1] [1]).b = [(1 : ℂ)] := rfl
  have ha2 : (DF.init [1] [1]).a = [(1 : ℂ)] := rfl
  rw [hb', ha', hb1, ha1, hb2, ha2, toPoly_singleton, toPoly_singleton]
  simp only [Polynomial.eval_C]
  norm_num

/-- Claim C4 as amended: the transfer function of `F1 * F2` equals the
product of the transfer functions only up to a constant gain — the product
of the leading coefficients of the numerators (resp. denominators).
Concretely, `lc(b1)·lc(b2) · b(F1*F2) = b1·b2` and
`lc(a1)·lc(a2) · a(F1*F2) = a1·a2` as polynomials, so the two transfer
functions agree exactly when those gains are 1 (e.g. for monic
numerators and denominators). -/
theorem claim4_amended :
    ∀ f1 f2 : DF,
      Polynomial.C ((toPoly f1.b).leadingCoeff * (toPoly f2.b).leadingCoeff) *
          toPoly ((f1.mul f2).b) = toPoly f1.b * toPoly f2.b ∧
      Polynomial.C ((toPoly f1.a).leadingCoeff * (toPoly f2.a).leadingCoeff) *
          toPoly ((f1.mul f2).a) = toPoly f1.a * toPoly f2.a := by
  have key : ∀ c1 c2 : List ℂ,
      Polynomial.C ((toPoly c1).leadingCoeff * (toPoly c2).leadingCoeff) *
        toPoly (coeffsOfRoots (rootsOf c1 + rootsOf c2)) = toPoly c1 * toPoly c2 := by
    intro c1 c2
    rw [toPoly_coeffsOfRoots, polyOfRoots_add, Polynomial.C_mul]
    conv_rhs => rw [← C_leadingCoeff_mul_polyOfRoots_rootsOf c1,
      ← C_leadingCoeff_mul_polyOfRoots_rootsOf c2]
    ring
  exact fun f1 f2 => ⟨key f1.b f2.b, key f1.a f2.a⟩

/-- Claim C5: factorization is complete and correctly classified.  Whenever
`factorize` succeeds (i.e. on an FIR-flagged filter), the zero multisets of
the two returned filters add up to the zero multiset of the input, every
zero of magnitude at most 1 (including those exactly on the unit circle)
is a zero of `Fmin`, every zero of magnitude above 1 is a zero of `Fmax`,
and conversely all zeros of `Fmin` (resp. `Fmax`) have magnitude at most 1
(resp. above 1). -/
theorem claim5_factorize_complete (s F1 F2 : DF)
    (h : s.factorize = some (F1, F2)) :
    F1.z + F2.z = s.z ∧
    (∀ x ∈ s.z, Complex.abs x ≤ 1 → x ∈ F1.z) ∧
    (∀ x ∈ s.z, 1 < Complex.abs x → x ∈ F2.z) ∧
    (∀ x ∈ F1.z, Complex.abs x ≤ 1) ∧
    (∀ x ∈ F2.z, 1 < Complex.abs x) := by
  by_cases hf : s.fir
  · simp only [DF.factorize, hf, if_true, Option.some.injEq, Prod.mk.injEq] at h
    obtain ⟨h1, h2⟩ := h
    subst h1
    subst h2
    have hz1 : (DF.init (coeffsOfRoots (s.z.filter fun x => Complex.abs x ≤ 1)) [1]).z =
        s.z.filter fun x => Complex.abs x ≤ 1 :=
      rootsOf_coeffsOfRoots _
    have hz2 : (DF.init (coeffsOfRoots (s.z.filter fun x => 1 < Complex.abs x)) [1]).z =
        s.z.filter fun x => 1 < Complex.abs x :=
      rootsOf_coeffsOfRoots _
    rw [hz1, hz2]
    refine ⟨?_, ?_, ?_, ?_, ?_⟩
    · have hpq : s.z.filter (fun x => 1 < Complex.abs x) =
          s.z.filter (fun x => ¬ Complex.abs x ≤ 1) :=
        Multiset.filter_congr fun x _ => by simp [not_le]
      rw [hpq, Multiset.filter_add_not]
    · intro x hx hle
      exact Multiset.mem_filter.mpr ⟨hx, hle⟩
    · intro x hx hgt
      exact Multiset.mem_filter.mpr ⟨hx, hgt⟩
    · intro x hx
      exact (Multiset.mem_filter.mp hx).2
    · intro x hx
      exact (Multiset.mem_filter.mp hx).2
  · simp [DF.factorize, hf] at h

theorem claim5_witness :
    ((DF.init [1] [1]).setZ {(2 : ℂ)}).factorize =
      some (DF.init (coeffsOfRoots
          (((DF.init [1] [1]).setZ {(2 : ℂ)}).z.filter fun x => Complex.abs x ≤ 1)) [1],
        DF.init (coeffsOfRoots
          (((DF.init [1] [1]).setZ {(2 : ℂ)}).z.filter fun x => 1 < Complex.abs x)) [1]) ∧
    (DF.init (coeffsOfRoots
        (((DF.init [1] [1]).setZ {(2 : ℂ)}).z.filter fun x => Complex.abs x ≤ 1)) [1]).z +
      (DF.init (coeffsOfRoots
        (((DF.init [1] [1]).setZ {(2 : ℂ)}).z.filter fun x => 1 < Complex.abs x)) [1]).z =
      ((DF.init [1] [1]).setZ {(2 : ℂ)}).z := by
  refine ⟨rfl, ?_⟩
  exact (claim5_factorize_complete ((DF.init [1] [1]).setZ {(2 : ℂ)})
    (DF.init (coeffsOfRoots
      (((DF.init [1] [1]).setZ {(2 : ℂ)}).z.filter fun x => Complex.abs x ≤ 1)) [1])
    (DF.init (coeffsOfRoots
      (((DF.init [1] [1]).setZ {(2 : ℂ)}).z.filter fun x => 1 < Complex.abs x)) [1])
    rfl).1

/-- Claim C6: the matched filter of an FIR filter.  When `fir` is set,
`match` succeeds, and whenever it returns a filter `m`, the numerator of `m`
is the order-reversed elementwise complex conjugate of `b` and the
denominator of `m` is the input's denominator `a` unchanged. -/
theorem claim6_match_conjugate :
    (∀ s : DF, s.fir = true → (s.matchf).isSome = true) ∧
    (∀ s m : DF, s.matchf = some m →
      m.b = (s.b.reverse).map (starRingEnd ℂ) ∧ m.a = s.a) := by
  constructor
  · intro s h
    simp [DF.matchf, h]
  · intro s m h
    by_cases hf : s.fir
    · simp only [DF.matchf, hf, if_true, Option.some.injEq] at h
      subst h
      exact ⟨rfl, rfl⟩
    · simp [DF.matchf, hf] at h

theorem claim6_witness :
    ((DF.init [1, 2] [1]).matchf).isSome = true ∧
    ((DF.init [1, 2] [1]).matchf.getD (DF.init [1] [1])).b =
      (((DF.init [1, 2] [1]).b).reverse).map (starRingEnd ℂ) ∧
    ((DF.init [1, 2] [1]).matchf.getD (DF.init [1] [1])).a =
      (DF.init [1, 2] [1]).a :=
  ⟨claim6_match_conjugate.1 (DF.init [1, 2] [1]) rfl,
    claim6_match_conjugate.2 (DF.init [1, 2] [1])
      ((DF.init [1, 2] [1]).matchf.getD (DF.init [1] [1])) rfl⟩

/-- Claim C7: `match` and `factorize` on a non-FIR filter produce no filter:
in the source the guarding `if self.fir` falls through and Python returns
`None`, which the embedding renders as `none` — never a `Filter` result. -/
theorem claim7_nonfir_yields_nothing (s : DF) (h : s.fir = false) :
    s.matchf = none ∧ s.factorize = none := by
  constructor
  · simp [DF.matchf, h]
  · simp [DF.factorize, h]

theorem claim7_witness :
    (DF.init [1] [1, 2]).fir = false ∧
    (DF.init [1] [1, 2]).matchf = none ∧
    (DF.init [1] [1, 2]).factorize = none :=
  ⟨rfl, claim7_nonfir_yields_nothing (DF.init [1] [1, 2]) rfl⟩

/-- Claim C8 (refuted at a concrete behaviour of the external root utility):
a failing setter does NOT leave the filter state untouched.  The source
assigns the coefficient field before computing the roots, so if the root
computation fails the filter keeps the new coefficients with the stale
derived fields. -/
theorem claim8_counterexample :
    ((DF.init [1] [1]).setBExc (fun _ => Except.error ()) [2, 3]).2 = false ∧
    ((DF.init [1] [1]).setBExc (fun _ => Except.error ()) [2, 3]).1 ≠
      DF.init [1] [1] := by
  refine ⟨rfl, fun h => ?_⟩
  have h2 := congrArg (fun t => t.b.length) h
  simp [DF.setBExc, DF.init, DF.setB, DF.setA, DF.mk0] at h2

/-- Claim C8 as amended: a setter whose root computation fails is not
atomic — it has already overwritten the primary coefficient field, while
every other field keeps its previous value.  For the `b` setter: `b` is the
new value, and `z`, `a`, `p`, `fir` are unchanged; for the `a` setter: `a`
is the new value, and `p`, `fir`, `b`, `z` are unchanged. -/
theorem claim8_amended :
    ∀ (s : DF) (roots : List ℂ → Except Unit (Multiset ℂ)) (v : List ℂ)
      (e : Unit), roots v = Except.error e →
      ((s.setBExc roots v).2 = false ∧
        (s.setBExc roots v).1.b = v ∧ (s.setBExc roots v).1.z = s.z ∧
        (s.setBExc roots v).1.a = s.a ∧ (s.setBExc roots v).1.p = s.p ∧
        (s.setBExc roots v).1.fir = s.fir) ∧
      ((s.setAExc roots v).2 = false ∧
        (s.setAExc roots v).1.a = v ∧ (s.setAExc roots v).1.p = s.p ∧
        (s.setAExc roots v).1.fir = s.fir ∧ (s.setAExc roots v).1.b = s.b ∧
        (s.setAExc roots v).1.z = s.z) := by
  intro s roots v e h
  constructor
  · simp [DF.setBExc, h]
  · simp [DF.setAExc, h]

theorem claim8_witness :
    ((DF.init [1] [1]).setBExc (fun _ => Except.error ()) [2, 3]).2 = false ∧
    ((DF.init [1] [1]).setBExc (fun _ => Except.error ()) [2, 3]).1.z =
      (DF.init [1] [1]).z ∧
    ((DF.init [1] [1]).setAExc (fun _ => Except.error ()) [2, 3]).1.fir =
      (DF.init [1] [1]).fir :=
  ⟨((claim8_amended (DF.init [1] [1]) (fun _ => Except.error ()) [2, 3] () rfl).1).1,
    ((claim8_amended (DF.init [1] [1]) (fun _ => Except.error ()) [2, 3] () rfl).1).2.2.1,
    ((claim8_amended (DF.init [1] [1]) (fun _ => Except.error ()) [2, 3] () rfl).2).2.2.2.1⟩

/-- Claim C10: frame property of the numerator write path.  Setting `b` (or
setting `z`) leaves the denominator coefficients `a`, the pole multiset `p`
and the `fir` flag exactly as they were. -/
theorem claim10_numerator_frame :
    ∀ (s : DF) (c : List ℂ) (r : Multiset ℂ),
      ((s.setB c).a = s.a ∧ (s.setB c).p = s.p ∧ (s.setB c).fir = s.fir) ∧
      ((s.setZ r).a = s.a ∧ (s.setZ r).p = s.p ∧ (s.setZ r).fir = s.fir) :=
  fun _ _ _ => ⟨⟨rfl, rfl, rfl⟩, ⟨rfl, rfl, rfl⟩⟩

theorem dfOut_one (x : ℕ → ℂ) (n : ℕ) : DF.dfOut [1] [1] x n = x n := by
  rw [DF.dfOut]
  have hsum : ((Finset.Icc 1 n).attach.sum fun j =>
      List.getD [1] j.1 0 * DF.dfOut [1] [1] x (n - j.1)) = 0 := by
    apply Finset.sum_eq_zero
    intro j hj
    have h1 : 1 ≤ j.1 := (Finset.mem_Icc.mp j.2).1
    obtain ⟨k, hk⟩ : ∃ k, j.1 = k + 1 := ⟨j.1 - 1, by omega⟩
    rw [hk]
    simp
  rw [hsum]
  simp

theorem map_getD_range (x : List ℂ) :
    (List.range x.length).map (fun n => x.getD n 0) = x := by
  apply List.ext_get
  · simp
  · intro i h1 h2
    simp [List.getD_eq_getElem?_getD, List.getElem?_eq_getElem h2]

/-- Claim C9: the default-constructed filter (`b=[1]`, `a=[1]`) is the
identity system: applying it (causally) to any signal returns the signal
unchanged; its `fir` flag is true and its zero and pole multisets are both
empty. -/
theorem claim9_default_identity :
    (∀ x : List ℂ, (DF.init [1] [1]).filter x true = x) ∧
    (DF.init [1] [1]).fir = true ∧
    (DF.init [1] [1]).z = 0 ∧ (DF.init [1] [1]).p = 0 := by
  refine ⟨?_, rfl, ?_, ?_⟩
  · intro x
    show (List.range x.length).map
      (fun n => DF.dfOut [1] [1] (fun k => x.getD k 0) n) = x
    have hmap : (List.range x.length).map
        (fun n => DF.dfOut [1] [1] (fun k => x.getD k 0) n) =
        (List.range x.length).map (fun n => x.getD n 0) :=
      List.map_congr_left fun n _ => dfOut_one (fun k => x.getD k 0) n
    rw [hmap, map_getD_range]
  · show rootsOf [1] = 0
    exact rootsOf_singleton 1
  · show rootsOf [1] = 0
    exact rootsOf_singleton 1
